import Mathlib

/-!
Verification of the cleanup resolution and execution engine of `kodelint/wiper`.

The development shallowly embeds the Go source:

* Go strings that carry path data are modelled as `List Char` (`GoStr`), with
  the relevant `strings` / `path/filepath` library functions (`HasPrefix`,
  `Contains`, `Replace`, `ReplaceAll`, `Clean`, `Join`, `Abs`) re-implemented
  over that representation, following the Go standard library semantics.
* The filesystem is modelled as a lookup from paths to metadata trees
  (`FsTree`), which is threaded through the functions that consult it; the
  deletion primitive (`pkg/utils` `RemovePath`) returns the possibly-updated
  filesystem so that (absence of) mutation is visible in the model.
* The interactive confirmation prompt reads from a modelled stream of input
  lines (`List String`); an exhausted stream behaves like end-of-file, where
  `bufio.Reader.ReadString` yields an empty line.
-/

namespace Wiper

/-! ## Go strings as `List Char` -/

/-- Go strings carrying path data, modelled as lists of characters. -/
abbrev GoStr := List Char

/-- Coerce a Lean string literal to the `GoStr` model. -/
def gs (s : String) : GoStr := s.data

/-- Model of Go `strings.HasPrefix s pre`. -/
def startsWith : GoStr → GoStr → Bool
  | _, [] => true
  | [], _ :: _ => false
  | c :: s, p :: ps => if c = p then startsWith s ps else false

/-- Model of Go `strings.Contains s sub`. -/
def containsSub : GoStr → GoStr → Bool
  | [], pat => startsWith [] pat
  | c :: rest, pat => startsWith (c :: rest) pat || containsSub rest pat

/-- Scanner for `strings.ReplaceAll`: replaces each non-overlapping, leftmost
occurrence of `old` by `new`; `skip` counts characters of a just-matched
occurrence that remain to be consumed. -/
def raGo (old new : GoStr) : GoStr → Nat → GoStr
  | [], _ => []
  | _ :: rest, skip + 1 => raGo old new rest skip
  | c :: rest, 0 =>
    if startsWith (c :: rest) old ∧ old ≠ [] then new ++ raGo old new rest (old.length - 1)
    else c :: raGo old new rest 0

/-- Model of Go `strings.ReplaceAll s old new` (only ever called with a
non-empty `old`; for `old = ""` Go would interleave `new` between characters,
a case no call site exercises). -/
def replaceAll (s old new : GoStr) : GoStr := raGo old new s 0

/-- Model of Go `strings.Replace s old new 1`: replace the first occurrence
only (again only called with non-empty `old`). -/
def replaceFirst : GoStr → GoStr → GoStr → GoStr
  | [], _, _ => []
  | c :: rest, old, new =>
    if startsWith (c :: rest) old ∧ old ≠ [] then new ++ List.drop (old.length - 1) rest
    else c :: replaceFirst rest old new

/-! ## `path/filepath` model: `Clean`, `Join`, `Abs` -/

/-- Split a path on `/` separators, as `strings.Split s "/"` would. -/
def splitSlash : GoStr → List GoStr
  | [] => [[]]
  | c :: rest =>
    if c = '/' then [] :: splitSlash rest
    else
      match splitSlash rest with
      | [] => [[c]]
      | s :: ss => (c :: s) :: ss

/-- One step of `filepath.Clean`'s element processing: empty and `.` elements
are dropped, `..` pops the last retained element (or is kept when nothing can
be popped and the path is not rooted, or dropped at the root of a rooted
path), and any other element is retained.  The retained elements are kept in
reverse order. -/
def cleanStep (rooted : Bool) (stack : List GoStr) (seg : GoStr) : List GoStr :=
  if seg = [] ∨ seg = ['.'] then stack
  else if seg = ['.', '.'] then
    match stack with
    | [] => if rooted then [] else [['.', '.']]
    | top :: rest => if top = ['.', '.'] then ['.', '.'] :: top :: rest else rest
  else seg :: stack

/-- Join path elements with `/` separators. -/
def joinSegs : List GoStr → GoStr
  | [] => []
  | [s] => s
  | s :: rest => s ++ '/' :: joinSegs rest

/-- Model of Go `filepath.Clean` (POSIX rules): lexically remove `.`
elements, duplicate separators, trailing separators and resolvable `..`
elements; the empty path cleans to `.`. -/
def clean (path : GoStr) : GoStr :=
  if path = [] then ['.']
  else
    let rooted := startsWith path ['/']
    let outs := (splitSlash path).foldl (cleanStep rooted) []
    let body := joinSegs outs.reverse
    if rooted then '/' :: body
    else if body = [] then ['.']
    else body

/-- Model of Go `filepath.Join a b` for two elements: non-empty elements are
joined with a separator and the result is cleaned. -/
def goJoin (a b : GoStr) : GoStr :=
  if a = [] ∧ b = [] then []
  else if a = [] then clean b
  else if b = [] then clean a
  else clean (a ++ '/' :: b)

/-- Model of Go `filepath.Abs` relative to working directory `cwd`: an
already-absolute path is cleaned, a relative one is joined onto `cwd`. -/
def goAbs (cwd path : GoStr) : GoStr :=
  if startsWith path ['/'] then clean path else goJoin cwd path

/-! ## `pkg/utils` `ExpandPath` and `ContainsPath` -/

/-- The literal `$HOME`. -/
def dollarHome : GoStr := ['$', 'H', 'O', 'M', 'E']

/-- The literal `${HOME}`. -/
def braceHome : GoStr := ['$', '{', 'H', 'O', 'M', 'E', '}']

/-- `pkg/utils.ExpandPath`: replaces a leading `~` by the home directory
(via `filepath.Join`), else expands `$HOME`, else `${HOME}` (via
`strings.ReplaceAll`).  `home = []` models an unset `HOME`, in which case
`os.UserHomeDir` errors / `os.Getenv` is empty and the path is returned
unchanged by the corresponding branch. -/
def ExpandPath (home : GoStr) (path : GoStr) : GoStr :=
  if startsWith path ['~'] then
    if home = [] then path else goJoin home (path.drop 1)
  else if containsSub path dollarHome then
    if home = [] then path else replaceAll path dollarHome home
  else if containsSub path braceHome then
    if home = [] then path else replaceAll path braceHome home
  else path

/-- `pkg/utils.ContainsPath`: the target is ignored iff, for some ignore
entry, the cleaned absolute target equals the cleaned absolute expanded entry
or extends it by a path separator. -/
def ContainsPath (cwd home : GoStr) (targetPath : GoStr) (ignorePaths : List GoStr) : Bool :=
  let absTargetPath := goAbs cwd targetPath
  ignorePaths.any fun ignored =>
    let expandedIgnored := ExpandPath home ignored
    let absIgnoredPath := goAbs cwd expandedIgnored
    let cleanTargetPath := clean absTargetPath
    let cleanIgnoredPath := clean absIgnoredPath
    if cleanTargetPath = cleanIgnoredPath then true
    else startsWith cleanTargetPath (cleanIgnoredPath ++ ['/'])

/-! ## Filesystem metadata model and `pkg/utils` size calculator -/

/-- Metadata tree for one filesystem entry, as observed through `os.Lstat`,
`syscall.Stat_t` and `filepath.Walk`:

* `file blocks logicalSize` — a non-directory; `blocks = some b` means a
  `syscall.Stat_t` with `Blocks = b` is available, `none` means the block
  metadata is unavailable and only the logical size can be read;
* `dir blocks logicalSize readable children` — a directory with its own
  allocation metadata; `readable = false` means listing its entries fails
  (the walk callback then receives the error and returns `SkipDir`, so the
  whole node contributes nothing);
* `broken` — an entry whose metadata cannot be read at all (`lstat` fails
  with an error other than not-exists). -/
inductive FsTree where
  | file (blocks : Option Int) (logicalSize : Int)
  | dir (blocks : Option Int) (logicalSize : Int) (readable : Bool) (children : List FsTree)
  | broken

/-- On-disk allocation of one entry: `Blocks * 512` when the `Stat_t` is
available, the logical size otherwise. -/
def allocSize (blocks : Option Int) (logicalSize : Int) : Int :=
  match blocks with
  | some b => b * 512
  | none => logicalSize

mutual

/-- Total size accumulated by the `filepath.Walk` callback in
`GetFileSizeInBytes` over one node: unreadable nodes are skipped with zero
contribution (`SkipDir`), readable nodes contribute their own allocation plus
their descendants'. -/
def walkSize : FsTree → Int
  | FsTree.file blocks logicalSize => allocSize blocks logicalSize
  | FsTree.broken => 0
  | FsTree.dir blocks logicalSize readable children =>
    if readable then allocSize blocks logicalSize + walkSizeList children else 0

/-- Sum of `walkSize` over a directory's entries. -/
def walkSizeList : List FsTree → Int
  | [] => 0
  | t :: ts => walkSize t + walkSizeList ts

end

/-- The filesystem: metadata lookup per path (`none` = path does not exist). -/
structure Fs where
  lookup : String → Option FsTree

/-- `pkg/utils.GetFileSizeInBytes`: a missing path has size 0 with no error;
a failing `lstat` is an error; a non-directory reports its allocation
(blocks when available, logical size otherwise); a directory reports the
walk's accumulated total (the walk itself never surfaces an error because
the callback converts every per-entry error into `SkipDir`). -/
def GetFileSizeInBytes (fs : Fs) (path : String) : Except String Int :=
  match fs.lookup path with
  | none => Except.ok 0
  | some FsTree.broken => Except.error ("failed to get info for " ++ path)
  | some (FsTree.file blocks logicalSize) => Except.ok (allocSize blocks logicalSize)
  | some (FsTree.dir blocks logicalSize readable children) =>
    Except.ok (walkSize (FsTree.dir blocks logicalSize readable children))

/-- `pkg/utils.RemovePath`: measures the path, then — in the shipped source —
performs no removal in either mode, because the `os.RemoveAll` call is
commented out; both the dry-run and the non-dry-run branch return the
measured size and leave the filesystem untouched. -/
def RemovePath (fs : Fs) (path : String) (dryRun : Bool) : Except String Int × Fs :=
  match GetFileSizeInBytes fs path with
  | Except.error e =>
    (Except.error ("could not get size of " ++ path ++ " before removal: " ++ e), fs)
  | Except.ok size =>
    if dryRun then (Except.ok size, fs)
    else (Except.ok size, fs)

/-! ## `pkg/reclaimer` ledger -/

/-- `reclaimer.ReclaimedEntry`. -/
structure ReclaimedEntry where
  Path : String
  SizeReclaimed : Int
  WasRemoved : Bool
  Category : String
deriving DecidableEq

/-- `reclaimer.SummaryTable`. -/
structure SummaryTable where
  Entries : List ReclaimedEntry
deriving DecidableEq

/-- `reclaimer.NewSummaryTable`. -/
def NewSummaryTable : SummaryTable := ⟨[]⟩

/-- `reclaimer.SummaryTable.AddEntry`: append one entry. -/
def AddEntry (st : SummaryTable) (path : String) (sizeReclaimed : Int) (wasRemoved : Bool)
    (category : String) : SummaryTable :=
  ⟨st.Entries ++ [⟨path, sizeReclaimed, wasRemoved, category⟩]⟩

/-- `reclaimer.SummaryTable.TotalReclaimedBytes`: folds the sizes of all
entries, with no regard to the `WasRemoved` flag. -/
def TotalReclaimedBytes (st : SummaryTable) : Int :=
  st.Entries.foldl (fun total entry => total + entry.SizeReclaimed) 0

/-- Association-list model of a Go `map[string]int64` accumulation
`m[k] += v`: iteration order over the Go map is unspecified, but every
aggregate this development states is order-insensitive. -/
def updateAList (m : List (String × Int)) (k : String) (v : Int) : List (String × Int) :=
  match m with
  | [] => [(k, v)]
  | (k₁, v₁) :: rest => if k₁ = k then (k₁, v₁ + v) :: rest else (k₁, v₁) :: updateAList rest k v

/-- The per-category totals computed at read time by
`reclaimer.SummaryTable.PrintTable` from the caller-supplied `dryRun` flag:
with the flag set (estimate rendering) every entry is aggregated, without it
(actual rendering) only entries with `WasRemoved = true` are. -/
def groupedTotals (st : SummaryTable) (dryRun : Bool) : List (String × Int) :=
  if dryRun then
    st.Entries.foldl (fun m entry => updateAList m entry.Category entry.SizeReclaimed) []
  else
    st.Entries.foldl
      (fun m entry =>
        if entry.WasRemoved then updateAList m entry.Category entry.SizeReclaimed else m)
      []

/-- The footer value rendered by `PrintTable` ("TOTAL RECLAIMED:"): it calls
`TotalReclaimedBytes`, ignoring the `dryRun` flag that selected the
per-category aggregation. -/
def printTableFooterTotal (st : SummaryTable) (dryRun : Bool) : Int :=
  TotalReclaimedBytes st

/-! ## `pkg/cleaner` execution policy -/

/-- `cleaner.cleanupItem`. -/
structure cleanupItem where
  Path : String
  Size : Int
  Category : String
  ActualPath : String
deriving DecidableEq

/-- `cleaner.dryRunItem`. -/
structure dryRunItem where
  Path : String
  Size : Int
deriving DecidableEq

/-- Model of Go `strings.TrimSpace`: drop whitespace from both ends. -/
def trimSpace (s : List Char) : List Char :=
  ((s.dropWhile Char.isWhitespace).reverse.dropWhile Char.isWhitespace).reverse

/-- Model of Go `strings.ToLower` (ASCII suffices for the compared
literals). -/
def toLowerGo (s : List Char) : List Char := s.map Char.toLower

/-- `cleaner.ConfirmAction` over a modelled stream of stdin lines: the first
line whose trimmed, lower-cased form is `y`/`yes` answers true, `n`/`no` or
an empty line answers false, anything else re-prompts on the next line; an
exhausted stream behaves like end-of-file, where `ReadString` returns an
empty line and the empty-input default (No) applies. -/
def ConfirmAction : List String → Bool × List String
  | [] => (false, [])
  | input :: rest =>
    let s := toLowerGo (trimSpace input.data)
    if s = gs "y" ∨ s = gs "yes" then (true, rest)
    else if s = gs "n" ∨ s = gs "no" ∨ s = [] then (false, rest)
    else ConfirmAction rest

/-- The display key under which `processCleanupItems` aggregates an item for
the preview table. -/
def displayKey (item : cleanupItem) : String :=
  if item.Path = item.ActualPath ∧ item.Category ≠ "" then item.Category else item.Path

/-- The deletion body shared verbatim by the three non-dry-run branches of
`processCleanupItems`: attempt `RemovePath`; on error record the item as not
removed with its pre-delete size, on success record the reclaimed size as
removed and add it to the running total. -/
def deleteItem (fs : Fs) (summary : SummaryTable) (acc : Int) (item : cleanupItem) :
    Fs × SummaryTable × Int :=
  match RemovePath fs item.ActualPath false with
  | (Except.error _, fs₁) =>
    (fs₁, AddEntry summary item.ActualPath item.Size false item.Category, acc)
  | (Except.ok reclaimed, fs₁) =>
    (fs₁, AddEntry summary item.ActualPath reclaimed true item.Category, acc + reclaimed)

/-- The unconditional deletion loop of the application and accepted-batch
branches. -/
def batchDelete (fs : Fs) (summary : SummaryTable) (acc : Int) :
    List cleanupItem → Fs × SummaryTable × Int
  | [] => (fs, summary, acc)
  | item :: rest =>
    let step := deleteItem fs summary acc item
    batchDelete step.1 step.2.1 step.2.2 rest

/-- The per-item confirmation loop of the interactive branch: each item asks
one confirmation; acceptance runs the shared deletion body, refusal records
the item as not removed with its pre-delete size; the loop always continues
to the next item. -/
def interactiveLoop (fs : Fs) (summary : SummaryTable) (inputs : List String) (acc : Int) :
    List cleanupItem → Fs × SummaryTable × List String × Int
  | [] => (fs, summary, inputs, acc)
  | item :: rest =>
    match ConfirmAction inputs with
    | (true, inputs₁) =>
      let step := deleteItem fs summary acc item
      interactiveLoop step.1 step.2.1 inputs₁ step.2.2 rest
    | (false, inputs₁) =>
      interactiveLoop fs (AddEntry summary item.ActualPath item.Size false item.Category) inputs₁
        acc rest

/-- Result of `processCleanupItems`: the returned total and error, the two
ledgers, the filesystem, and the unconsumed stdin lines. -/
structure ProcResult where
  totalReclaimed : Int
  err : Option String
  summary : SummaryTable
  estimatedSummary : SummaryTable
  fs : Fs
  inputs : List String

/-- `cleaner.processCleanupItems`: the central mode dispatch.  An empty item
list returns immediately; otherwise every item is recorded into the
estimated ledger and aggregated for the preview table, then exactly one of
the four terminal behaviours runs: dry-run (return the estimated total),
interactive (per-item confirmation), application mode (delete everything),
or default batch (one aggregate confirmation; declining returns zero with no
error). -/
def processCleanupItems (items : List cleanupItem) (dryRun interactive : Bool)
    (summary estimatedSummary : SummaryTable) (isApp : Bool) (fs : Fs) (inputs : List String) :
    ProcResult :=
  if items.length = 0 then ⟨0, none, summary, estimatedSummary, fs, inputs⟩
  else
    let aggregatedForTable :=
      items.foldl (fun m item => updateAList m (displayKey item) item.Size) []
    let estimatedSummary₁ :=
      items.foldl
        (fun st item => AddEntry st item.ActualPath item.Size false item.Category)
        estimatedSummary
    let tableItems : List dryRunItem := aggregatedForTable.map fun p => ⟨p.1, p.2⟩
    if dryRun then
      ⟨(tableItems.map dryRunItem.Size).sum, none, summary, estimatedSummary₁, fs, inputs⟩
    else if interactive then
      let result := interactiveLoop fs summary inputs 0 items
      ⟨result.2.2.2, none, result.2.1, estimatedSummary₁, result.1, result.2.2.1⟩
    else if isApp then
      let result := batchDelete fs summary 0 items
      ⟨result.2.2, none, result.2.1, estimatedSummary₁, result.1, inputs⟩
    else
      match ConfirmAction inputs with
      | (true, inputs₁) =>
        let result := batchDelete fs summary 0 items
        ⟨result.2.2, none, result.2.1, estimatedSummary₁, result.1, inputs₁⟩
      | (false, inputs₁) => ⟨0, none, summary, estimatedSummary₁, fs, inputs₁⟩

/-! ## `pkg/cleaner/large_files.go` classifier -/

/-- The home-directory normalisation at the top of `categorizeLargeFilePath`:
a path under the home directory has that prefix replaced by `~` (first
occurrence, which is the leading one). -/
def normalizedLargeFilePath (homeDir path : GoStr) : GoStr :=
  if startsWith path homeDir then replaceFirst path homeDir (gs "~") else path

/-- The named browser-cache predicate: the first, most specific rule of the
classifier. -/
def browserCacheRule (normalizedPath : GoStr) : Bool :=
  containsSub normalizedPath (gs "~/Library/Application Support/Google/Chrome") ||
  containsSub normalizedPath (gs "~/Library/Caches/Google/Chrome") ||
  containsSub normalizedPath (gs "~/Library/Application Support/BraveSoftware/Brave-Browser") ||
  containsSub normalizedPath (gs "~/Library/Caches/com.apple.Safari") ||
  containsSub normalizedPath (gs "~/Library/Application Support/Firefox")

/-- The developer-tool cache predicate of the classifier. -/
def devToolRule (normalizedPath : GoStr) : Bool :=
  containsSub normalizedPath (gs ".rustup") ||
  containsSub normalizedPath (gs ".npm") ||
  containsSub normalizedPath (gs ".gradle") ||
  containsSub normalizedPath (gs "Xcode/iOS DeviceSupport") ||
  containsSub normalizedPath (gs "Android/Sdk") ||
  containsSub normalizedPath (gs "JetBrains")

/-- `cleaner.categorizeLargeFilePath`: the ordered rule cascade, transcribed
from the source's if-chain.  `home = none` models a failing
`os.UserHomeDir`, which degrades to the two path-based fallback checks. -/
def categorizeLargeFilePath (home : Option GoStr) (path : GoStr) : String :=
  match home with
  | none =>
    if startsWith path (gs "/private/var") || startsWith path (gs "/tmp") then
      "System Temporary Files"
    else "Other Large Files"
  | some homeDir =>
    let normalizedPath := normalizedLargeFilePath homeDir path
    if browserCacheRule normalizedPath then "Browser Caches"
    else if startsWith normalizedPath (gs "~/Downloads") then "User Downloads"
    else if startsWith normalizedPath (gs "~/Documents") then "User Documents"
    else if startsWith normalizedPath (gs "~/Library/Application Support") then
      "Application Support Files"
    else if startsWith normalizedPath (gs "~/Library/Caches") then "User Caches"
    else if startsWith normalizedPath (gs "~/Library/Containers") then "User Container Data"
    else if startsWith normalizedPath (gs "~/Library/Group Containers") then
      "User Group Container Data"
    else if startsWith normalizedPath (gs "~/Library/Messages/Attachments") then
      "Messages Attachments"
    else if startsWith normalizedPath (gs "~/Library/Metadata/CoreSpotlight") then
      "Spotlight Metadata"
    else if startsWith normalizedPath (gs "~/Library") then "Other User Library Files"
    else if startsWith path (gs "/private/var/folders") ||
        startsWith path (gs "/private/var/tmp") || startsWith path (gs "/tmp") then
      "System Temporary Files"
    else if devToolRule normalizedPath then "Developer Tool Caches/Data"
    else if startsWith normalizedPath (gs "~/") then "User Home Files"
    else if startsWith path (gs "/var") || startsWith path (gs "/usr") ||
        startsWith path (gs "/opt") then "System Files"
    else "Other Large Files"

/-- The classifier's rule table as an ordered list of (predicate, category)
pairs; each predicate sees the raw path and its home-normalised form, in the
exact order of the source's if-chain. -/
def largeFileRules : List ((GoStr → GoStr → Bool) × String) :=
  [(fun _ n => browserCacheRule n, "Browser Caches"),
   (fun _ n => startsWith n (gs "~/Downloads"), "User Downloads"),
   (fun _ n => startsWith n (gs "~/Documents"), "User Documents"),
   (fun _ n => startsWith n (gs "~/Library/Application Support"), "Application Support Files"),
   (fun _ n => startsWith n (gs "~/Library/Caches"), "User Caches"),
   (fun _ n => startsWith n (gs "~/Library/Containers"), "User Container Data"),
   (fun _ n => startsWith n (gs "~/Library/Group Containers"), "User Group Container Data"),
   (fun _ n => startsWith n (gs "~/Library/Messages/Attachments"), "Messages Attachments"),
   (fun _ n => startsWith n (gs "~/Library/Metadata/CoreSpotlight"), "Spotlight Metadata"),
   (fun _ n => startsWith n (gs "~/Library"), "Other User Library Files"),
   (fun p _ => startsWith p (gs "/private/var/folders") || startsWith p (gs "/private/var/tmp") ||
      startsWith p (gs "/tmp"), "System Temporary Files"),
   (fun _ n => devToolRule n, "Developer Tool Caches/Data"),
   (fun _ n => startsWith n (gs "~/"), "User Home Files"),
   (fun p _ => startsWith p (gs "/var") || startsWith p (gs "/usr") || startsWith p (gs "/opt"),
      "System Files")]

/-- First-matching-rule evaluation over an ordered rule table, falling back
to "Other Large Files". -/
def firstMatchCategory : List ((GoStr → GoStr → Bool) × String) → GoStr → GoStr → String
  | [], _, _ => "Other Large Files"
  | (pred, cat) :: rest, path, normalizedPath =>
    if pred path normalizedPath then cat else firstMatchCategory rest path normalizedPath

/-! ## `cmd/wipe.go` dispatch -/

/-- The action selected by `wipeCmd.RunE` before any discovery begins. -/
inductive WipeAction where
  | validationError (msg : String)
  | largeFilesCleanup
  | appUninstall (appName : String)
  | systemCleanup
deriving DecidableEq

/-- The branching at the top of `wipeCmd.RunE` (cobra has already enforced
at most one positional argument): the large-files flag with an application
name is a validation error returned before any scan; otherwise the flag
selects the large-file scan, one argument selects application
uninstallation, and no argument selects the system cleanup. -/
def wipeRunE (largeFilesFlag : Bool) (args : List String) : WipeAction :=
  if largeFilesFlag then
    if args.length > 0 then
      WipeAction.validationError "the --large-files flag cannot be used with an application name"
    else WipeAction.largeFilesCleanup
  else if args.length = 1 then WipeAction.appUninstall (args.headD "")
  else WipeAction.systemCleanup

/-! ## Derived characterizations used by the correctness statements -/

/-- The estimated-ledger entry recorded for one candidate. -/
def entryOfItem (item : cleanupItem) : ReclaimedEntry :=
  ⟨item.ActualPath, item.Size, false, item.Category⟩

/-- Sum of the sizes of the `WasRemoved = true` entries of a ledger. -/
def sumRemoved (l : List ReclaimedEntry) : Int :=
  ((l.filter fun e => e.WasRemoved).map fun e => e.SizeReclaimed).sum

/-- Sum of the values of an aggregation map. -/
def sumValues (m : List (String × Int)) : Int := (m.map fun p => p.2).sum

/-- The actual-ledger entries appended by an unconditional deletion loop over
`items` against the (never mutated) filesystem `fs`. -/
def batchEntries (fs : Fs) : List cleanupItem → List ReclaimedEntry
  | [] => []
  | it :: rest =>
    (match GetFileSizeInBytes fs it.ActualPath with
     | Except.error _ => ⟨it.ActualPath, it.Size, false, it.Category⟩
     | Except.ok sz => ⟨it.ActualPath, sz, true, it.Category⟩) :: batchEntries fs rest

/-- The actual-ledger entries appended by the interactive loop over `items`,
driven by the modelled stdin lines. -/
def interEntries (fs : Fs) : List String → List cleanupItem → List ReclaimedEntry
  | _, [] => []
  | inputs, it :: rest =>
    match ConfirmAction inputs with
    | (true, inputs₁) =>
      (match GetFileSizeInBytes fs it.ActualPath with
       | Except.error _ => ⟨it.ActualPath, it.Size, false, it.Category⟩
       | Except.ok sz => ⟨it.ActualPath, sz, true, it.Category⟩) :: interEntries fs inputs₁ rest
    | (false, inputs₁) =>
      ⟨it.ActualPath, it.Size, false, it.Category⟩ :: interEntries fs inputs₁ rest

/-- A path element retained by `filepath.Clean` on a rooted path: non-empty,
not a dot element, and free of separators. -/
def PlainSeg (seg : GoStr) : Prop :=
  seg ≠ [] ∧ seg ≠ ['.'] ∧ seg ≠ ['.', '.'] ∧ '/' ∉ seg

/-! ## Ledger and execution-policy lemmas -/

theorem sumRemoved_cons (e : ReclaimedEntry) (l : List ReclaimedEntry) :
    sumRemoved (e :: l) = (if e.WasRemoved then e.SizeReclaimed else 0) + sumRemoved l := by
  by_cases h : e.WasRemoved <;> simp [sumRemoved, List.filter_cons, h]

theorem foldl_add_size (l : List ReclaimedEntry) :
    ∀ a : Int, l.foldl (fun total entry => total + entry.SizeReclaimed) a
      = a + (l.map fun e => e.SizeReclaimed).sum := by
  induction l with
  | nil => intro a; simp
  | cons e rest ih => intro a; simp [ih]; ring

theorem totalReclaimedBytes_eq (st : SummaryTable) :
    TotalReclaimedBytes st = (st.Entries.map fun e => e.SizeReclaimed).sum := by
  simpa [TotalReclaimedBytes] using foldl_add_size st.Entries 0

theorem removePath_fs (fs : Fs) (path : String) (dryRun : Bool) :
    (RemovePath fs path dryRun).2 = fs := by
  unfold RemovePath
  cases GetFileSizeInBytes fs path <;> simp [apply_ite]

theorem removePath_ok (fs : Fs) (path : String) (dryRun : Bool) (size : Int)
    (h : GetFileSizeInBytes fs path = Except.ok size) :
    (RemovePath fs path dryRun).1 = Except.ok size := by
  unfold RemovePath
  rw [h]
  simp [apply_ite]

theorem deleteItem_eq (fs : Fs) (s : SummaryTable) (a : Int) (it : cleanupItem) :
    deleteItem fs s a it =
      (fs,
       ⟨s.Entries ++
         [match GetFileSizeInBytes fs it.ActualPath with
          | Except.error _ => ⟨it.ActualPath, it.Size, false, it.Category⟩
          | Except.ok sz => (⟨it.ActualPath, sz, true, it.Category⟩ : ReclaimedEntry)]⟩,
       a + (match GetFileSizeInBytes fs it.ActualPath with
          | Except.error _ => 0
          | Except.ok sz => sz)) := by
  unfold deleteItem RemovePath
  cases GetFileSizeInBytes fs it.ActualPath <;> simp [AddEntry]

theorem batchDelete_spec (items : List cleanupItem) :
    ∀ (fs : Fs) (s : SummaryTable) (a : Int),
      batchDelete fs s a items =
        (fs, ⟨s.Entries ++ batchEntries fs items⟩, a + sumRemoved (batchEntries fs items)) := by
  induction items with
  | nil => intro fs s a; simp [batchDelete, batchEntries, sumRemoved]
  | cons it rest ih =>
    intro fs s a
    simp only [batchDelete, deleteItem_eq]
    rw [ih]
    cases h : GetFileSizeInBytes fs it.ActualPath <;>
      simp [batchEntries, h, sumRemoved_cons] <;> ring

theorem interactiveLoop_spec (items : List cleanupItem) :
    ∀ (fs : Fs) (s : SummaryTable) (inputs : List String) (a : Int),
      ∃ inputs₁,
        interactiveLoop fs s inputs a items =
          (fs, ⟨s.Entries ++ interEntries fs inputs items⟩, inputs₁,
           a + sumRemoved (interEntries fs inputs items)) := by
  induction items with
  | nil =>
    intro fs s inputs a
    exact ⟨inputs, by simp [interactiveLoop, interEntries, sumRemoved]⟩
  | cons it rest ih =>
    intro fs s inputs a
    rcases hc : ConfirmAction inputs with ⟨yes, inputs'⟩
    cases yes
    · obtain ⟨ri, hri⟩ := ih fs (AddEntry s it.ActualPath it.Size false it.Category) inputs' a
      refine ⟨ri, ?_⟩
      simp only [interactiveLoop, hc]
      rw [hri]
      simp [AddEntry, interEntries, hc, sumRemoved_cons]
    · obtain ⟨ri, hri⟩ :=
        ih fs
          ⟨s.Entries ++
            [match GetFileSizeInBytes fs it.ActualPath with
             | Except.error _ => ⟨it.ActualPath, it.Size, false, it.Category⟩
             | Except.ok sz => (⟨it.ActualPath, sz, true, it.Category⟩ : ReclaimedEntry)]⟩
          inputs'
          (a + (match GetFileSizeInBytes fs it.ActualPath with
                | Except.error _ => 0
                | Except.ok sz => sz))
      refine ⟨ri, ?_⟩
      rw [interactiveLoop, hc]
      simp only [deleteItem_eq]
      rw [hri]
      cases h : GetFileSizeInBytes fs it.ActualPath <;>
        simp [interEntries, hc, h, sumRemoved_cons] <;> ring

theorem interEntries_length (fs : Fs) :
    ∀ (items : List cleanupItem) (inputs : List String),
      (interEntries fs inputs items).length = items.length := by
  intro items
  induction items with
  | nil => intro inputs; simp [interEntries]
  | cons it rest ih =>
    intro inputs
    rcases hc : ConfirmAction inputs with ⟨yes, inputs'⟩
    cases yes <;> simp [interEntries, hc, ih]

theorem estFold (items : List cleanupItem) :
    ∀ st : SummaryTable,
      (items.foldl (fun st item => AddEntry st item.ActualPath item.Size false item.Category)
          st).Entries
        = st.Entries ++ items.map entryOfItem := by
  induction items with
  | nil => intro st; simp
  | cons it rest ih =>
    intro st
    simp only [List.foldl_cons]
    rw [ih]
    simp [AddEntry, entryOfItem]

theorem sumValues_update (m : List (String × Int)) (k : String) (v : Int) :
    sumValues (updateAList m k v) = sumValues m + v := by
  induction m with
  | nil => simp [updateAList, sumValues]
  | cons p rest ih =>
    obtain ⟨k₁, v₁⟩ := p
    by_cases h : k₁ = k <;> simp [updateAList, h, sumValues] at ih ⊢ <;> [ring; (rw [ih]; ring)]

theorem agg_sum (items : List cleanupItem) :
    ∀ m : List (String × Int),
      sumValues (items.foldl (fun m item => updateAList m (displayKey item) item.Size) m)
        = sumValues m + (items.map cleanupItem.Size).sum := by
  induction items with
  | nil => intro m; simp
  | cons it rest ih => intro m; simp [List.foldl_cons, ih, sumValues_update]; ring

theorem estFold_st (items : List cleanupItem) (st : SummaryTable) :
    items.foldl (fun st item => AddEntry st item.ActualPath item.Size false item.Category) st
      = ⟨st.Entries ++ items.map entryOfItem⟩ :=
  congrArg SummaryTable.mk (estFold items st)

theorem tableSum (items : List cleanupItem) :
    (((items.foldl (fun m item => updateAList m (displayKey item) item.Size) []).map
        fun p => (⟨p.1, p.2⟩ : dryRunItem)).map dryRunItem.Size).sum
      = (items.map cleanupItem.Size).sum := by
  have h := agg_sum items []
  simp [sumValues] at h
  simpa [List.map_map, Function.comp] using h

theorem proc_nil (dryRun interactive : Bool) (summary est : SummaryTable) (isApp : Bool)
    (fs : Fs) (inputs : List String) :
    processCleanupItems [] dryRun interactive summary est isApp fs inputs
      = ⟨0, none, summary, est, fs, inputs⟩ := by
  simp [processCleanupItems]

theorem proc_dry (items : List cleanupItem) (interactive : Bool) (summary est : SummaryTable)
    (isApp : Bool) (fs : Fs) (inputs : List String) (h : items.length ≠ 0) :
    processCleanupItems items true interactive summary est isApp fs inputs
      = ⟨(items.map cleanupItem.Size).sum, none, summary,
         ⟨est.Entries ++ items.map entryOfItem⟩, fs, inputs⟩ := by
  simp [processCleanupItems, h, estFold_st, tableSum]
  have h2 := agg_sum items []
  simp [sumValues] at h2
  simpa [Function.comp] using h2

theorem proc_interactive (items : List cleanupItem) (summary est : SummaryTable) (isApp : Bool)
    (fs : Fs) (inputs : List String) (h : items.length ≠ 0) :
    ∃ inputs₁,
      processCleanupItems items false true summary est isApp fs inputs
        = ⟨sumRemoved (interEntries fs inputs items), none,
           ⟨summary.Entries ++ interEntries fs inputs items⟩,
           ⟨est.Entries ++ items.map entryOfItem⟩, fs, inputs₁⟩ := by
  obtain ⟨inputs₁, hloop⟩ := interactiveLoop_spec items fs summary inputs 0
  exact ⟨inputs₁, by simp [processCleanupItems, h, estFold_st, hloop]⟩

theorem proc_app (items : List cleanupItem) (summary est : SummaryTable)
    (fs : Fs) (inputs : List String) (h : items.length ≠ 0) :
    processCleanupItems items false false summary est true fs inputs
      = ⟨sumRemoved (batchEntries fs items), none,
         ⟨summary.Entries ++ batchEntries fs items⟩,
         ⟨est.Entries ++ items.map entryOfItem⟩, fs, inputs⟩ := by
  simp [processCleanupItems, h, estFold_st, batchDelete_spec]

theorem proc_default_accept (items : List cleanupItem) (summary est : SummaryTable)
    (fs : Fs) (inputs inputs₁ : List String) (h : items.length ≠ 0)
    (hc : ConfirmAction inputs = (true, inputs₁)) :
    processCleanupItems items false false summary est false fs inputs
      = ⟨sumRemoved (batchEntries fs items), none,
         ⟨summary.Entries ++ batchEntries fs items⟩,
         ⟨est.Entries ++ items.map entryOfItem⟩, fs, inputs₁⟩ := by
  simp [processCleanupItems, h, estFold_st, batchDelete_spec, hc]

theorem proc_default_decline (items : List cleanupItem) (summary est : SummaryTable)
    (fs : Fs) (inputs inputs₁ : List String) (h : items.length ≠ 0)
    (hc : ConfirmAction inputs = (false, inputs₁)) :
    processCleanupItems items false false summary est false fs inputs
      = ⟨0, none, summary, ⟨est.Entries ++ items.map entryOfItem⟩, fs, inputs₁⟩ := by
  simp [processCleanupItems, h, estFold_st, hc]

theorem proc_fs (items : List cleanupItem) (dryRun interactive : Bool)
    (summary est : SummaryTable) (isApp : Bool) (fs : Fs) (inputs : List String) :
    (processCleanupItems items dryRun interactive summary est isApp fs inputs).fs = fs := by
  by_cases h0 : items.length = 0
  · have h : items = [] := List.length_eq_zero.mp h0
    subst h
    rw [proc_nil]
  · obtain ⟨ii, hii⟩ := interactiveLoop_spec items fs summary inputs 0
    rcases hc : ConfirmAction inputs with ⟨yes, inputs'⟩
    cases dryRun <;> cases interactive <;> cases isApp <;> cases yes <;>
      simp [processCleanupItems, h0, hii, hc, batchDelete_spec]

/-! ## String-model lemmas for the ignore filter -/

theorem startsWith_append_self (a b : GoStr) : startsWith (a ++ b) a = true := by
  induction a with
  | nil => cases b <;> simp [startsWith]
  | cons c a ih => simp [startsWith, ih]

theorem containsSub_mem_head (s : GoStr) (p : Char) (ps : GoStr)
    (h : containsSub s (p :: ps) = true) : p ∈ s := by
  induction s with
  | nil => simp [containsSub, startsWith] at h
  | cons c rest ih =>
    simp only [containsSub, Bool.or_eq_true] at h
    rcases h with h | h
    · simp only [startsWith] at h
      by_cases hc : c = p
      · subst hc
        exact List.mem_cons_self _ _
      · simp [hc] at h
    · exact List.mem_cons_of_mem _ (ih h)

theorem containsSub_eq_false_of_not_mem {s : GoStr} {p : Char} {ps : GoStr} (h : p ∉ s) :
    containsSub s (p :: ps) = false := by
  cases hcs : containsSub s (p :: ps) with
  | false => rfl
  | true => exact absurd (containsSub_mem_head s p ps hcs) h

theorem raGo_drop (old new : GoStr) :
    ∀ (s : GoStr) (k : Nat), raGo old new s k = raGo old new (s.drop k) 0 := by
  intro s
  induction s with
  | nil => intro k; cases k <;> simp [raGo]
  | cons c rest ih =>
    intro k
    cases k with
    | zero => simp
    | succ k => simp [raGo, ih k]

theorem replaceAll_head_match (old new rest : GoStr) (h : old ≠ []) :
    replaceAll (old ++ rest) old new = new ++ replaceAll rest old new := by
  rcases old with _ | ⟨o, os⟩
  · exact absurd rfl h
  · show raGo (o :: os) new ((o :: os) ++ rest) 0 = new ++ raGo (o :: os) new rest 0
    rw [List.cons_append]
    simp only [raGo]
    rw [if_pos ⟨by rw [← List.cons_append]; exact startsWith_append_self (o :: os) rest,
        by simp⟩]
    rw [raGo_drop]
    simp [List.drop_left]

theorem replaceAll_of_not_contains (old new : GoStr) :
    ∀ s : GoStr, containsSub s old = false → replaceAll s old new = s := by
  intro s
  induction s with
  | nil => intro h; rfl
  | cons c rest ih =>
    intro h
    simp only [containsSub, Bool.or_eq_false_iff] at h
    show raGo old new (c :: rest) 0 = c :: rest
    simp only [raGo]
    rw [if_neg]
    · rw [show raGo old new rest 0 = replaceAll rest old new from rfl, ih h.2]
    · intro hcond
      rw [h.1] at hcond
      simp at hcond

theorem splitSlash_ne_nil : ∀ s : GoStr, splitSlash s ≠ [] := by
  intro s
  cases s with
  | nil => simp [splitSlash]
  | cons c rest =>
    by_cases h : c = '/'
    · simp [splitSlash, h]
    · simp only [splitSlash, if_neg h]
      cases hs : splitSlash rest <;> simp

theorem splitSlash_append (a b : GoStr) :
    splitSlash (a ++ '/' :: b) = splitSlash a ++ splitSlash b := by
  induction a with
  | nil => simp [splitSlash]
  | cons c a ih =>
    by_cases h : c = '/'
    · subst h
      simp [splitSlash, ih]
    · simp only [List.cons_append, splitSlash, if_neg h]
      rcases hs : splitSlash a with _ | ⟨s, ss⟩
      · exact absurd hs (splitSlash_ne_nil a)
      · simp only [List.append_eq]
        rw [ih, hs]
        simp

theorem splitSlash_no_slash : ∀ (s : GoStr) (seg : GoStr), seg ∈ splitSlash s → '/' ∉ seg := by
  intro s
  induction s with
  | nil =>
    intro seg h
    simp [splitSlash] at h
    subst h
    simp
  | cons c rest ih =>
    intro seg h
    by_cases hc : c = '/'
    · subst hc
      rw [show splitSlash ('/' :: rest) = [] :: splitSlash rest from by simp [splitSlash]] at h
      rcases List.mem_cons.mp h with h | h
      · subst h; simp
      · exact ih seg h
    · simp only [splitSlash, if_neg hc] at h
      cases hs : splitSlash rest with
      | nil => exact absurd hs (splitSlash_ne_nil rest)
      | cons s ss =>
        rw [hs] at h
        simp only [List.mem_cons] at h
        rcases h with h | h
        · subst h
          intro hm
          rcases List.mem_cons.mp hm with h1 | h1
          · exact hc h1.symm
          · exact ih s (by rw [hs]; exact List.mem_cons_self _ _) h1
        · exact ih seg (by rw [hs]; exact List.mem_cons_of_mem _ h)

theorem splitSlash_single : ∀ s : GoStr, '/' ∉ s → splitSlash s = [s] := by
  intro s
  induction s with
  | nil => intro h; rfl
  | cons c rest ih =>
    intro h
    have hc : ¬c = '/' := by
      intro hh
      exact h (by rw [hh]; exact List.mem_cons_self _ _)
    simp only [splitSlash, if_neg hc]
    rw [ih (fun hm => h (List.mem_cons_of_mem c hm))]

theorem startsWith_slash_iff (p : GoStr) : startsWith p ['/'] = true ↔ ∃ t, p = '/' :: t := by
  cases p with
  | nil => simp [startsWith]
  | cons c t =>
    by_cases hc : c = '/'
    · subst hc
      simp [startsWith]
    · simp [startsWith, hc]

theorem clean_rooted_eq (p : GoStr) (h : startsWith p ['/'] = true) :
    clean p = '/' :: joinSegs ((splitSlash p).foldl (cleanStep true) []).reverse := by
  obtain ⟨t, rfl⟩ := (startsWith_slash_iff p).mp h
  unfold clean
  rw [if_neg (by simp)]
  simp [h]

theorem clean_rooted_rooted (p : GoStr) (h : startsWith p ['/'] = true) :
    startsWith (clean p) ['/'] = true := by
  rw [clean_rooted_eq p h]
  simp [startsWith]

theorem cleanStep_empty (r : Bool) (st : List GoStr) : cleanStep r st [] = st := by
  simp [cleanStep]

theorem clean_extra_sep (home sub : GoStr) (h : startsWith home ['/'] = true) :
    clean (home ++ '/' :: '/' :: sub) = clean (home ++ '/' :: sub) := by
  have h1 : startsWith (home ++ '/' :: '/' :: sub) ['/'] = true := by
    obtain ⟨t, rfl⟩ := (startsWith_slash_iff home).mp h
    simp [startsWith]
  have h2 : startsWith (home ++ '/' :: sub) ['/'] = true := by
    obtain ⟨t, rfl⟩ := (startsWith_slash_iff home).mp h
    simp [startsWith]
  rw [clean_rooted_eq _ h1, clean_rooted_eq _ h2]
  have hs1 : splitSlash (home ++ '/' :: '/' :: sub)
      = splitSlash home ++ [] :: splitSlash sub := by
    rw [splitSlash_append]
    simp [splitSlash]
  have hs2 : splitSlash (home ++ '/' :: sub) = splitSlash home ++ splitSlash sub :=
    splitSlash_append home sub
  rw [hs1, hs2]
  simp [List.foldl_append, cleanStep_empty]

theorem plain_push (r : Bool) (st : List GoStr) (seg : GoStr) (h : PlainSeg seg) :
    cleanStep r st seg = seg :: st := by
  obtain ⟨h1, h2, h3, _⟩ := h
  unfold cleanStep
  rw [if_neg (by simp [h1, h2]), if_neg h3]

theorem cleanStep_skip (r : Bool) (st : List GoStr) {seg : GoStr}
    (h1 : seg = [] ∨ seg = ['.']) : cleanStep r st seg = st := by
  unfold cleanStep
  rw [if_pos h1]

theorem cleanStep_dotdot_nil (r : Bool) :
    cleanStep r [] ['.', '.'] = if r then [] else [['.', '.']] := by
  simp [cleanStep]

theorem cleanStep_dotdot_cons (r : Bool) (top : GoStr) (rest : List GoStr)
    (h3 : top ≠ ['.', '.']) : cleanStep r (top :: rest) ['.', '.'] = rest := by
  simp [cleanStep, h3]

theorem stack_plain (segs : List GoStr) :
    ∀ stack : List GoStr, (∀ x ∈ stack, PlainSeg x) → (∀ seg ∈ segs, '/' ∉ seg) →
      ∀ x ∈ segs.foldl (cleanStep true) stack, PlainSeg x := by
  induction segs with
  | nil => intro stack hst _ x hx; exact hst x hx
  | cons seg rest ih =>
    intro stack hst hsl x hx
    rw [List.foldl_cons] at hx
    refine ih (cleanStep true stack seg) ?_ (fun s hs => hsl s (List.mem_cons_of_mem _ hs)) x hx
    intro y hy
    by_cases h1 : seg = [] ∨ seg = ['.']
    · rw [cleanStep_skip true stack h1] at hy
      exact hst y hy
    · by_cases h2 : seg = ['.', '.']
      · subst h2
        cases stack with
        | nil =>
          rw [cleanStep_dotdot_nil true] at hy
          simp at hy
        | cons top rest₁ =>
          by_cases h3 : top = ['.', '.']
          · exact absurd h3 (hst top (List.mem_cons_self _ _)).2.2.1
          · rw [cleanStep_dotdot_cons true top rest₁ h3] at hy
            exact hst y (List.mem_cons_of_mem _ hy)
      · rw [plain_push true stack seg
            ⟨fun hx₁ => h1 (Or.inl hx₁), fun hx₁ => h1 (Or.inr hx₁), h2,
             hsl seg (List.mem_cons_self _ _)⟩] at hy
        rcases List.mem_cons.mp hy with hh | hh
        · subst hh
          exact ⟨fun hx₁ => h1 (Or.inl hx₁), fun hx₁ => h1 (Or.inr hx₁), h2,
            hsl _ (List.mem_cons_self _ _)⟩
        · exact hst y hh

theorem foldl_plain (segs : List GoStr) :
    ∀ stack, (∀ x ∈ segs, PlainSeg x) →
      segs.foldl (cleanStep true) stack = segs.reverse ++ stack := by
  induction segs with
  | nil => intro stack _; rfl
  | cons seg rest ih =>
    intro stack h
    rw [List.foldl_cons, plain_push true stack seg (h seg (List.mem_cons_self _ _)),
        ih (seg :: stack) (fun x hx => h x (List.mem_cons_of_mem _ hx))]
    simp

theorem joinSegs_split (outs : List GoStr) :
    outs ≠ [] → (∀ x ∈ outs, '/' ∉ x) → splitSlash (joinSegs outs) = outs := by
  induction outs with
  | nil => intro h _; exact absurd rfl h
  | cons s rest ih =>
    intro _ h
    cases rest with
    | nil => exact splitSlash_single s (h s (List.mem_cons_self _ _))
    | cons s₂ rest₂ =>
      rw [show joinSegs (s :: s₂ :: rest₂) = s ++ '/' :: joinSegs (s₂ :: rest₂) from rfl,
          splitSlash_append, splitSlash_single s (h s (List.mem_cons_self _ _)),
          ih (by simp) (fun x hx => h x (List.mem_cons_of_mem _ hx))]
      rfl

theorem clean_idem_rooted (p : GoStr) (h : startsWith p ['/'] = true) :
    clean (clean p) = clean p := by
  have hplain : ∀ x ∈ (splitSlash p).foldl (cleanStep true) [], PlainSeg x :=
    stack_plain (splitSlash p) [] (by simp) (splitSlash_no_slash p)
  rw [clean_rooted_eq p h, clean_rooted_eq _ (by simp [startsWith])]
  congr 1
  rw [show splitSlash ('/' :: joinSegs ((splitSlash p).foldl (cleanStep true) []).reverse)
      = [] :: splitSlash (joinSegs ((splitSlash p).foldl (cleanStep true) []).reverse)
      from by simp [splitSlash]]
  rw [List.foldl_cons, cleanStep_empty]
  rcases Decidable.em ((splitSlash p).foldl (cleanStep true) [] = []) with hnil | hne
  · rw [hnil]
    simp [joinSegs, splitSlash, cleanStep]
  · have hrev_ne : ((splitSlash p).foldl (cleanStep true) []).reverse ≠ [] := by simpa using hne
    have hrev_plain : ∀ x ∈ ((splitSlash p).foldl (cleanStep true) []).reverse, PlainSeg x :=
      fun x hx => hplain x (List.mem_reverse.mp hx)
    rw [joinSegs_split _ hrev_ne (fun x hx => (hrev_plain x hx).2.2.2),
        foldl_plain _ [] hrev_plain]
    simp

theorem expand_tilde (home sub : GoStr) (hh : home ≠ []) :
    ExpandPath home ('~' :: '/' :: sub) = clean (home ++ '/' :: '/' :: sub) := by
  unfold ExpandPath
  rw [if_pos (by simp [startsWith] : startsWith ('~' :: '/' :: sub) ['~'] = true), if_neg hh]
  show goJoin home ('/' :: sub) = clean (home ++ '/' :: '/' :: sub)
  unfold goJoin
  rw [if_neg (by simp [hh]), if_neg hh, if_neg (by simp)]

theorem expand_dollar (home sub : GoStr) (hh : home ≠ []) (hs : '$' ∉ sub) :
    ExpandPath home (dollarHome ++ '/' :: sub) = home ++ '/' :: sub := by
  have htilde : startsWith (dollarHome ++ '/' :: sub) ['~'] = false := by
    simp [dollarHome, startsWith]
  have hcontains : containsSub (dollarHome ++ '/' :: sub) dollarHome = true := by
    rw [show dollarHome ++ '/' :: sub = '$' :: (['H', 'O', 'M', 'E'] ++ '/' :: sub) from rfl]
    simp only [containsSub, Bool.or_eq_true]
    left
    exact startsWith_append_self dollarHome ('/' :: sub)
  have hnocc : containsSub ('/' :: sub) dollarHome = false :=
    containsSub_eq_false_of_not_mem (by simp [hs])
  unfold ExpandPath
  rw [if_neg (by simp [htilde]), if_pos hcontains, if_neg hh,
      replaceAll_head_match dollarHome home ('/' :: sub) (by simp [dollarHome]),
      replaceAll_of_not_contains dollarHome home ('/' :: sub) hnocc]

theorem expand_brace (home sub : GoStr) (hh : home ≠ []) (hs : '$' ∉ sub) :
    ExpandPath home (braceHome ++ '/' :: sub) = home ++ '/' :: sub := by
  have htilde : startsWith (braceHome ++ '/' :: sub) ['~'] = false := by
    simp [braceHome, startsWith]
  have hdollar : containsSub (braceHome ++ '/' :: sub) dollarHome = false := by
    rw [show braceHome ++ '/' :: sub
        = '$' :: '{' :: (['H', 'O', 'M', 'E', '}'] ++ '/' :: sub) from rfl]
    have hsub : containsSub sub ['$', 'H', 'O', 'M', 'E'] = false :=
      containsSub_eq_false_of_not_mem hs
    simp [containsSub, startsWith, dollarHome, hsub]
  have hcontains : containsSub (braceHome ++ '/' :: sub) braceHome = true := by
    rw [show braceHome ++ '/' :: sub
        = '$' :: (['{', 'H', 'O', 'M', 'E', '}'] ++ '/' :: sub) from rfl]
    simp only [containsSub, Bool.or_eq_true]
    left
    exact startsWith_append_self braceHome ('/' :: sub)
  have hnocc : containsSub ('/' :: sub) braceHome = false :=
    containsSub_eq_false_of_not_mem (by simp [hs])
  unfold ExpandPath
  rw [if_neg (by simp [htilde]), if_neg (by simp [hdollar]), if_pos hcontains, if_neg hh,
      replaceAll_head_match braceHome home ('/' :: sub) (by simp [braceHome]),
      replaceAll_of_not_contains braceHome home ('/' :: sub) hnocc]

theorem expand_literal (home sub : GoStr) (hroot : startsWith home ['/'] = true)
    (hd : '$' ∉ home) (hs : '$' ∉ sub) :
    ExpandPath home (home ++ '/' :: sub) = home ++ '/' :: sub := by
  have hmem : '$' ∉ home ++ '/' :: sub := by simp [hd, hs]
  have htilde : startsWith (home ++ '/' :: sub) ['~'] = false := by
    obtain ⟨t, rfl⟩ := (startsWith_slash_iff home).mp hroot
    simp [startsWith]
  have hdollar : containsSub (home ++ '/' :: sub) dollarHome = false :=
    containsSub_eq_false_of_not_mem hmem
  have hbrace : containsSub (home ++ '/' :: sub) braceHome = false :=
    containsSub_eq_false_of_not_mem hmem
  unfold ExpandPath
  rw [if_neg (by simp [htilde]), if_neg (by simp [hdollar]), if_neg (by simp [hbrace])]

/-- The per-entry check of `ContainsPath`, specialised to one ignore entry. -/
theorem containsPath_singleton (cwd home target e : GoStr) :
    ContainsPath cwd home target [e]
      = (if clean (goAbs cwd target) = clean (goAbs cwd (ExpandPath home e)) then true
         else startsWith (clean (goAbs cwd target))
           (clean (goAbs cwd (ExpandPath home e)) ++ ['/'])) := by
  simp [ContainsPath]

theorem goAbs_rooted (cwd p : GoStr) (h : startsWith p ['/'] = true) :
    goAbs cwd p = clean p := by
  unfold goAbs
  rw [if_pos h]

theorem cleaned_tilde_variant (cwd home sub : GoStr) (hroot : startsWith home ['/'] = true) :
    clean (goAbs cwd (ExpandPath home ('~' :: '/' :: sub)))
      = clean (goAbs cwd (home ++ '/' :: sub)) := by
  have hh : home ≠ [] := by
    obtain ⟨t, rfl⟩ := (startsWith_slash_iff home).mp hroot
    simp
  have hroot₁ : startsWith (home ++ '/' :: sub) ['/'] = true := by
    obtain ⟨t, rfl⟩ := (startsWith_slash_iff home).mp hroot
    simp [startsWith]
  rw [expand_tilde home sub hh, clean_extra_sep home sub hroot,
      goAbs_rooted cwd _ (clean_rooted_rooted _ hroot₁), goAbs_rooted cwd _ hroot₁,
      clean_idem_rooted _ hroot₁, clean_idem_rooted _ hroot₁]

theorem walkSizeList_eq : ∀ l : List FsTree, walkSizeList l = (l.map walkSize).sum := by
  intro l
  induction l with
  | nil => simp [walkSizeList]
  | cons t ts ih => simp [walkSizeList, ih]

/-! ## Claims -/

/-- C1: in every mode, the deletion primitive `RemovePath` performs no
filesystem mutation — the removal call (`os.RemoveAll`) is absent from the
source — and whenever size computation succeeds it returns the path's current
size with no error; consequently every run of `processCleanupItems` leaves
the filesystem unchanged, and a ledger entry with `removed = true` does not
imply the path was actually deleted. -/
theorem claim1_removal_absent :
    (∀ (fs : Fs) (path : String) (dryRun : Bool), (RemovePath fs path dryRun).2 = fs) ∧
    (∀ (fs : Fs) (path : String) (dryRun : Bool) (size : Int),
      GetFileSizeInBytes fs path = Except.ok size →
      RemovePath fs path dryRun = (Except.ok size, fs)) ∧
    (∀ (items : List cleanupItem) (dryRun interactive : Bool) (summary est : SummaryTable)
      (isApp : Bool) (fs : Fs) (inputs : List String),
      (processCleanupItems items dryRun interactive summary est isApp fs inputs).fs = fs) := by
  refine ⟨removePath_fs, ?_, proc_fs⟩
  intro fs path dryRun size h
  have h1 := removePath_ok fs path dryRun size h
  have h2 := removePath_fs fs path dryRun
  rcases hr : RemovePath fs path dryRun with ⟨r, fs₁⟩
  rw [hr] at h1 h2
  simp only at h1 h2
  rw [h1, h2]

/-- Witness for C1 at a concrete filesystem: a successful size computation of
1536 bytes makes the non-dry-run `RemovePath` return exactly that size with
no error and the filesystem untouched. -/
theorem claim1_witness :
    RemovePath ⟨fun _ => some (FsTree.file (some 3) 9000)⟩ "/a" false
      = (Except.ok 1536, (⟨fun _ => some (FsTree.file (some 3) 9000)⟩ : Fs)) :=
  claim1_removal_absent.2.1 ⟨fun _ => some (FsTree.file (some 3) 9000)⟩ "/a" false 1536 rfl

/-- C2: with `dryRun = true`, `processCleanupItems` performs no deletion call
and no filesystem mutation, leaves the actual ledger untouched, records every
candidate into the estimated ledger, and returns exactly the sum of all
candidate sizes, with no error. -/
theorem claim2_dry_run_semantics (items : List cleanupItem) (interactive : Bool)
    (summary est : SummaryTable) (isApp : Bool) (fs : Fs) (inputs : List String) :
    (processCleanupItems items true interactive summary est isApp fs inputs).fs = fs ∧
    (processCleanupItems items true interactive summary est isApp fs inputs).summary = summary ∧
    (processCleanupItems items true interactive summary est isApp fs
          inputs).estimatedSummary.Entries
      = est.Entries ++ items.map entryOfItem ∧
    (processCleanupItems items true interactive summary est isApp fs inputs).totalReclaimed
      = (items.map cleanupItem.Size).sum ∧
    (processCleanupItems items true interactive summary est isApp fs inputs).err = none := by
  by_cases h0 : items.length = 0
  · have h : items = [] := List.length_eq_zero.mp h0
    subst h
    rw [proc_nil]
    simp
  · rw [proc_dry items interactive summary est isApp fs inputs h0]
    simp

/-- C3: in every mode (dry-run, interactive, application, default batch,
accepted or declined), `processCleanupItems` appends exactly one
estimated-ledger entry per candidate, so starting from the fresh estimated
ledger of a run its total is the sum of every discovered candidate's size,
independent of the deletion outcome. -/
theorem claim3_estimate_always_full (items : List cleanupItem) (dryRun interactive : Bool)
    (summary est : SummaryTable) (isApp : Bool) (fs : Fs) (inputs : List String) :
    (processCleanupItems items dryRun interactive summary est isApp fs
          inputs).estimatedSummary.Entries
      = est.Entries ++ items.map entryOfItem ∧
    TotalReclaimedBytes
        (processCleanupItems items dryRun interactive summary NewSummaryTable isApp fs
            inputs).estimatedSummary
      = (items.map cleanupItem.Size).sum := by
  have key : ∀ est' : SummaryTable,
      (processCleanupItems items dryRun interactive summary est' isApp fs
            inputs).estimatedSummary.Entries
        = est'.Entries ++ items.map entryOfItem := by
    intro est'
    by_cases h0 : items.length = 0
    · have h : items = [] := List.length_eq_zero.mp h0
      subst h
      rw [proc_nil]
      simp
    · obtain ⟨ii, hii⟩ := interactiveLoop_spec items fs summary inputs 0
      rcases hc : ConfirmAction inputs with ⟨yes, inputs'⟩
      cases dryRun <;> cases interactive <;> cases isApp <;> cases yes <;>
        simp [processCleanupItems, h0, hii, hc, batchDelete_spec, estFold_st]
  refine ⟨key est, ?_⟩
  rw [totalReclaimedBytes_eq, key NewSummaryTable]
  simp only [NewSummaryTable, List.nil_append, List.map_map]
  rfl

/-- C5: in interactive mode (fresh actual ledger): one ledger entry is
appended per candidate whatever the outcomes, the returned total is the sum
of the sizes of the `removed = true` entries, and per item an accepted
confirmation with a successful size computation records `removed = true`
with the freed size, while a declined confirmation or a deletion error
records `removed = false` with the pre-delete size; an empty input line
counts as a declination. -/
theorem claim5_interactive (fs : Fs) (est : SummaryTable) (items : List cleanupItem)
    (inputs : List String) :
    (processCleanupItems items false true NewSummaryTable est false fs
          inputs).summary.Entries.length = items.length ∧
    (processCleanupItems items false true NewSummaryTable est false fs inputs).totalReclaimed
      = sumRemoved
          (processCleanupItems items false true NewSummaryTable est false fs
              inputs).summary.Entries ∧
    (∀ (it : cleanupItem) (rest : List String) (sz : Int),
      ConfirmAction inputs = (true, rest) → GetFileSizeInBytes fs it.ActualPath = Except.ok sz →
      (processCleanupItems [it] false true NewSummaryTable est false fs inputs).summary.Entries
          = [⟨it.ActualPath, sz, true, it.Category⟩] ∧
        (processCleanupItems [it] false true NewSummaryTable est false fs inputs).totalReclaimed
          = sz) ∧
    (∀ (it : cleanupItem) (rest : List String),
      ConfirmAction inputs = (false, rest) →
      (processCleanupItems [it] false true NewSummaryTable est false fs inputs).summary.Entries
          = [⟨it.ActualPath, it.Size, false, it.Category⟩] ∧
        (processCleanupItems [it] false true NewSummaryTable est false fs inputs).totalReclaimed
          = 0) ∧
    (∀ (it : cleanupItem) (rest : List String) (e : String),
      ConfirmAction inputs = (true, rest) →
      GetFileSizeInBytes fs it.ActualPath = Except.error e →
      (processCleanupItems [it] false true NewSummaryTable est false fs inputs).summary.Entries
          = [⟨it.ActualPath, it.Size, false, it.Category⟩] ∧
        (processCleanupItems [it] false true NewSummaryTable est false fs inputs).totalReclaimed
          = 0) ∧
    (∀ rest : List String, ConfirmAction ("" :: rest) = (false, rest)) := by
  have single : ∀ it : cleanupItem, ∃ inputs₁,
      processCleanupItems [it] false true NewSummaryTable est false fs inputs
        = ⟨sumRemoved (interEntries fs inputs [it]), none,
           ⟨interEntries fs inputs [it]⟩, ⟨est.Entries ++ [it].map entryOfItem⟩, fs, inputs₁⟩ := by
    intro it
    obtain ⟨inputs₁, h⟩ := proc_interactive [it] NewSummaryTable est false fs inputs (by simp)
    exact ⟨inputs₁, by simpa [NewSummaryTable] using h⟩
  refine ⟨?_, ?_, ?_, ?_, ?_, ?_⟩
  · by_cases h0 : items.length = 0
    · have h : items = [] := List.length_eq_zero.mp h0
      subst h
      rw [proc_nil]
      simp [NewSummaryTable]
    · obtain ⟨inputs₁, h⟩ := proc_interactive items NewSummaryTable est false fs inputs h0
      rw [h]
      simp [NewSummaryTable, interEntries_length]
  · by_cases h0 : items.length = 0
    · have h : items = [] := List.length_eq_zero.mp h0
      subst h
      rw [proc_nil]
      simp [NewSummaryTable, sumRemoved]
    · obtain ⟨inputs₁, h⟩ := proc_interactive items NewSummaryTable est false fs inputs h0
      rw [h]
      simp [NewSummaryTable]
  · intro it rest sz hc hs
    obtain ⟨inputs₁, h⟩ := single it
    rw [h]
    simp [interEntries, hc, hs, sumRemoved]
  · intro it rest hc
    obtain ⟨inputs₁, h⟩ := single it
    rw [h]
    simp [interEntries, hc, sumRemoved]
  · intro it rest e hc hs
    obtain ⟨inputs₁, h⟩ := single it
    rw [h]
    simp [interEntries, hc, hs, sumRemoved]
  · intro rest
    rfl

/-- Witness for C5: a concrete accepted item is recorded `removed = true`
with its freed size 1024. -/
theorem claim5_witness :
    (processCleanupItems [⟨"/x", 7, "C", "/x"⟩] false true NewSummaryTable NewSummaryTable false
          ⟨fun _ => some (FsTree.file (some 2) 0)⟩ ["y"]).summary.Entries
      = [⟨"/x", 1024, true, "C"⟩] :=
  ((claim5_interactive ⟨fun _ => some (FsTree.file (some 2) 0)⟩ NewSummaryTable
      [⟨"/x", 7, "C", "/x"⟩] ["y"]).2.2.1 ⟨"/x", 7, "C", "/x"⟩ [] 1024 rfl rfl).1

/-- C6: in default-batch mode, a declined aggregate confirmation performs
zero deletions (the filesystem is unchanged), returns total 0 with no error,
and the fresh actual ledger holds no `removed = true` entry. -/
theorem claim6_decline_not_failure (items : List cleanupItem) (est : SummaryTable) (fs : Fs)
    (inputs inputs₁ : List String) (hc : ConfirmAction inputs = (false, inputs₁)) :
    (processCleanupItems items false false NewSummaryTable est false fs inputs).totalReclaimed
        = 0 ∧
    (processCleanupItems items false false NewSummaryTable est false fs inputs).err = none ∧
    (processCleanupItems items false false NewSummaryTable est false fs
          inputs).summary.Entries.filter (fun e => e.WasRemoved) = [] ∧
    (processCleanupItems items false false NewSummaryTable est false fs inputs).fs = fs := by
  by_cases h0 : items.length = 0
  · have h : items = [] := List.length_eq_zero.mp h0
    subst h
    rw [proc_nil]
    simp [NewSummaryTable]
  · rw [proc_default_decline items NewSummaryTable est fs inputs inputs₁ h0 hc]
    simp [NewSummaryTable]

/-- Witness for C6: declining with a concrete "n" answer yields total 0. -/
theorem claim6_witness :
    (processCleanupItems [⟨"/x", 5, "C", "/x"⟩] false false NewSummaryTable NewSummaryTable
          false ⟨fun _ => none⟩ ["n"]).totalReclaimed = 0 :=
  (claim6_decline_not_failure [⟨"/x", 5, "C", "/x"⟩] NewSummaryTable ⟨fun _ => none⟩
      ["n"] [] rfl).1

theorem agg_sum_entries (l : List ReclaimedEntry) :
    ∀ m, sumValues (l.foldl (fun m e => updateAList m e.Category e.SizeReclaimed) m)
      = sumValues m + (l.map fun e => e.SizeReclaimed).sum := by
  induction l with
  | nil => intro m; simp
  | cons e rest ih => intro m; simp [List.foldl_cons, ih, sumValues_update]; ring

theorem agg_sum_removed (l : List ReclaimedEntry) :
    ∀ m, sumValues (l.foldl
        (fun m e => if e.WasRemoved then updateAList m e.Category e.SizeReclaimed else m) m)
      = sumValues m + sumRemoved l := by
  induction l with
  | nil => intro m; simp [sumRemoved]
  | cons e rest ih =>
    intro m
    by_cases h : e.WasRemoved <;>
      simp [List.foldl_cons, h, ih, sumValues_update, sumRemoved_cons] <;> ring

/-- C4 (amended): the per-category totals computed at read time by
`PrintTable` from the caller-supplied flag sum only `removed = true` entries
in the actual view and all entries in the estimate view; but the ledger's
exposed total (`TotalReclaimedBytes`, also rendered as the table footer)
sums all entries regardless of the flag, so in a non-dry-run run it is not
restricted to `removed = true` entries. -/
theorem claim4_view_totals (st : SummaryTable) (dryRun : Bool) :
    sumValues (groupedTotals st false) = sumRemoved st.Entries ∧
    sumValues (groupedTotals st true) = TotalReclaimedBytes st ∧
    printTableFooterTotal st dryRun = TotalReclaimedBytes st := by
  refine ⟨?_, ?_, rfl⟩
  · simpa [groupedTotals, sumValues] using agg_sum_removed st.Entries []
  · rw [totalReclaimedBytes_eq]
    simpa [groupedTotals, sumValues] using agg_sum_entries st.Entries []

/-- Counterexample for C4 as stated: an actual (non-dry-run) interactive run
that deletes one 1024-byte item and declines a second item of recorded size
999 produces a ledger whose exposed total (`TotalReclaimedBytes`, rendered
in the footer) is 2023, while the sum over `removed = true` entries is
1024 — the exposed total is not the removed-only sum. -/
theorem claim4_counterexample :
    printTableFooterTotal
        (processCleanupItems [⟨"/a", 1024, "X", "/a"⟩, ⟨"/b", 999, "X", "/b"⟩] false true
            NewSummaryTable NewSummaryTable false
            ⟨fun _ => some (FsTree.file (some 2) 0)⟩ ["y", "n"]).summary false
      = 2023 ∧
    sumRemoved
        (processCleanupItems [⟨"/a", 1024, "X", "/a"⟩, ⟨"/b", 999, "X", "/b"⟩] false true
            NewSummaryTable NewSummaryTable false
            ⟨fun _ => some (FsTree.file (some 2) 0)⟩ ["y", "n"]).summary.Entries
      = 1024 ∧ (2023 : Int) ≠ 1024 := by
  refine ⟨rfl, rfl, by decide⟩

/-- C8: the size calculator returns 0 with no error for a missing path; for
a single file it returns block allocation when available and the logical
length otherwise; for a directory it returns the recursive sum of the
allocation of the directory and every descendant, never an error, with
unreadable sub-entries contributing zero rather than failing. -/
theorem claim8_size_calculator (fs : Fs) (path : String) :
    (fs.lookup path = none → GetFileSizeInBytes fs path = Except.ok 0) ∧
    (∀ b sz, fs.lookup path = some (FsTree.file (some b) sz) →
      GetFileSizeInBytes fs path = Except.ok (b * 512)) ∧
    (∀ sz, fs.lookup path = some (FsTree.file none sz) →
      GetFileSizeInBytes fs path = Except.ok sz) ∧
    (∀ b sz readable children, fs.lookup path = some (FsTree.dir b sz readable children) →
      GetFileSizeInBytes fs path
        = Except.ok (if readable then allocSize b sz + (children.map walkSize).sum else 0)) ∧
    walkSize FsTree.broken = 0 := by
  refine ⟨?_, ?_, ?_, ?_, ?_⟩
  · intro h
    simp [GetFileSizeInBytes, h]
  · intro b sz h
    simp [GetFileSizeInBytes, h, allocSize]
  · intro sz h
    simp [GetFileSizeInBytes, h, allocSize]
  · intro b sz readable children h
    simp [GetFileSizeInBytes, h, walkSize, walkSizeList_eq]
  · simp [walkSize]

/-- Witness for C8: a directory of 512 bytes own allocation with one
1024-byte file and one unreadable entry measures 1536 bytes. -/
theorem claim8_witness :
    GetFileSizeInBytes
        ⟨fun _ => some (FsTree.dir (some 1) 0 true [FsTree.file (some 2) 0, FsTree.broken])⟩
        "/d"
      = Except.ok 1536 := by
  have h := (claim8_size_calculator
      ⟨fun _ => some (FsTree.dir (some 1) 0 true [FsTree.file (some 2) 0, FsTree.broken])⟩
      "/d").2.2.2.1 (some 1) 0 true [FsTree.file (some 2) 0, FsTree.broken] rfl
  rw [h]
  norm_num [walkSize, allocSize]

/-- C9: the large-file classifier is first-match evaluation of its ordered
rule table, and any path matching the browser-cache rule — whether or not it
also matches later rules, including the fallback — is categorized as
"Browser Caches". -/
theorem claim9_classifier_order :
    (∀ homeDir path : GoStr,
      categorizeLargeFilePath (some homeDir) path
        = firstMatchCategory largeFileRules path (normalizedLargeFilePath homeDir path)) ∧
    (∀ homeDir path : GoStr,
      browserCacheRule (normalizedLargeFilePath homeDir path) = true →
      categorizeLargeFilePath (some homeDir) path = "Browser Caches") := by
  constructor
  · intro homeDir path
    rfl
  · intro homeDir path h
    simp [categorizeLargeFilePath, h]

/-- Witness for C9: a Chrome cache path under the home directory — which
also matches the later "~/Library/Caches" rule and the fallback — is
categorized under the browser-cache category. -/
theorem claim9_witness :
    categorizeLargeFilePath (some (gs "/Users/u"))
        (gs "/Users/u/Library/Caches/Google/Chrome/Cache/data_0") = "Browser Caches" :=
  claim9_classifier_order.2 (gs "/Users/u")
    (gs "/Users/u/Library/Caches/Google/Chrome/Cache/data_0") (by decide)

/-- C7: the ignore check holds iff the target's cleaned absolute form
equals, or is a path-separator-delimited descendant of, the cleaned absolute
form of some ignore entry after expansion; and for an absolute,
placeholder-free home directory the verdict over an entry below the home
directory is the same whether the entry is spelled with a leading `~`, with
`$HOME`, with `${HOME}`, or as the literal absolute path. -/
theorem claim7_ignore_check (cwd home target sub : GoStr) (ignores : List GoStr) :
    (ContainsPath cwd home target ignores = true ↔
      ∃ e ∈ ignores,
        clean (goAbs cwd target) = clean (goAbs cwd (ExpandPath home e)) ∨
        startsWith (clean (goAbs cwd target))
          (clean (goAbs cwd (ExpandPath home e)) ++ ['/']) = true) ∧
    (startsWith home ['/'] = true → '$' ∉ home → '$' ∉ sub →
      (ContainsPath cwd home target ['~' :: '/' :: sub]
          = ContainsPath cwd home target [home ++ '/' :: sub] ∧
        ContainsPath cwd home target [dollarHome ++ '/' :: sub]
          = ContainsPath cwd home target [home ++ '/' :: sub] ∧
        ContainsPath cwd home target [braceHome ++ '/' :: sub]
          = ContainsPath cwd home target [home ++ '/' :: sub])) := by
  constructor
  · have hiff : ∀ x y : GoStr,
        ((if x = y then true else startsWith x (y ++ ['/'])) = true)
          ↔ (x = y ∨ startsWith x (y ++ ['/']) = true) := by
      intro x y
      by_cases h : x = y <;> simp [h]
    simp only [ContainsPath, List.any_eq_true, hiff]
  · intro hroot hd hs
    have hh : home ≠ [] := by
      obtain ⟨t, rfl⟩ := (startsWith_slash_iff home).mp hroot
      simp
    have h1 := cleaned_tilde_variant cwd home sub hroot
    have h2 := expand_dollar home sub hh hs
    have h3 := expand_brace home sub hh hs
    have h4 := expand_literal home sub hroot hd hs
    refine ⟨?_, ?_, ?_⟩ <;>
      rw [containsPath_singleton, containsPath_singleton] <;>
      simp [h1, h2, h3, h4]

/-- Witness for C7: with home `/home/u`, the ignore entry `~/Docs` gives the
same verdict as the literal `/home/u/Docs` on the target
`/home/u/Docs/file.txt`, and that verdict is "ignored". -/
theorem claim7_witness :
    ContainsPath (gs "/") (gs "/home/u") (gs "/home/u/Docs/file.txt")
        ['~' :: '/' :: gs "Docs"]
      = ContainsPath (gs "/") (gs "/home/u") (gs "/home/u/Docs/file.txt")
        [gs "/home/u" ++ '/' :: gs "Docs"] ∧
    ContainsPath (gs "/") (gs "/home/u") (gs "/home/u/Docs/file.txt")
        [gs "/home/u" ++ '/' :: gs "Docs"] = true := by
  constructor
  · exact ((claim7_ignore_check (gs "/") (gs "/home/u") (gs "/home/u/Docs/file.txt")
      (gs "Docs") []).2 (by decide) (by decide) (by decide)).1
  · decide

/-- C10: `wipeCmd.RunE` rejects an invocation — before any discovery — iff
the large-files flag is combined with an application-name argument; no other
invocation is rejected by that validation. -/
theorem claim10_flag_validation (largeFilesFlag : Bool) (args : List String) (msg : String) :
    wipeRunE largeFilesFlag args = WipeAction.validationError msg
      ↔ msg = "the --large-files flag cannot be used with an application name" ∧
        largeFilesFlag = true ∧ args ≠ [] := by
  cases largeFilesFlag with
  | false => by_cases hl : args.length = 1 <;> simp [wipeRunE, hl]
  | true => rcases args with _ | ⟨a, as⟩ <;> simp [wipeRunE, eq_comm]

end Wiper

